import Mathlib

/-
Verification of the core path, branch, tree and transport semantics of rufs
(remote union file system), as shallow Lean embeddings of the Go source.

Conventions used throughout:
* slash-separated paths are represented by their lists of components;
* byte strings are `List Nat`;
* Go `error` values are `Option`/`Except` with structured error types;
* external collaborators (OS file system, TLS network, crypto hashes) are
  modelled by explicit state values or oracle parameters supplied to the
  embedded functions.
-/

namespace RufsProof

/-! ## Path sandboxing (`Branch.constructSubPath`)

`constructSubPath` joins the request path to the branch root with
`filepath.Join` (which cleans the joined path lexically), applies
`filepath.Abs` (a no-op modulo cleaning, the root being absolute) and then
checks `strings.HasPrefix(absSubPath, b.rootPath)`.
-/

/-- Lexical path cleaning as performed by Go's `filepath.Clean` on a rooted
path: empty and `.` components disappear and `..` removes the previous
component, never escaping above the root. -/
def cleanComps (cs : List String) : List String :=
  cs.foldl
    (fun acc c =>
      if c = "" || c = "." then acc
      else if c = ".." then acc.dropLast
      else acc ++ [c]) []

/-- Character rendering of path components joined by `/` (without a leading
slash); used to reproduce Go's byte-level `strings.HasPrefix` test. -/
def joinComps : List String → List Char
  | [] => []
  | [c] => c.data
  | c :: c' :: rest => c.data ++ '/' :: joinComps (c' :: rest)

/-- Character rendering of an absolute path with components `cs`:
the string `"/" ++ strings.Join(cs, "/")`. -/
def renderAbs (cs : List String) : List Char :=
  '/' :: joinComps cs

/-- Slash-joined rendering of a relative path, used for the error message
text `Requested path %v is outside of the branch`. -/
def renderRel : List String → String
  | [] => ""
  | [c] => c
  | c :: c' :: rest => c ++ "/" ++ renderRel (c' :: rest)

/-- Embedding of `Branch.constructSubPath` (part_006 lines 745-766).  `root`
is the branch's absolute, clean sandbox root `b.rootPath` and `rpath` the
slash components of the request path.  The joined path is cleaned
(`filepath.Join`/`filepath.Abs`) and accepted iff the rendered absolute
result has the rendered root as a *string* prefix, exactly as
`strings.HasPrefix(absSubPath, b.rootPath)` does. -/
def constructSubPath (root : List String) (rpath : List String) :
    Except String (List String) :=
  if (renderAbs root).isPrefixOf (renderAbs (cleanComps (root ++ rpath))) then
    .ok (cleanComps (root ++ rpath))
  else .error ("Requested path " ++ renderRel rpath ++ " is outside of the branch")

/-- `q` lies inside the subtree of `r` (descendant-or-self), component-wise. -/
def isDescendant (r q : List String) : Prop :=
  r <+: q

theorem joinComps_append (a b : List String) (ha : a ≠ []) (hb : b ≠ []) :
    joinComps (a ++ b) = joinComps a ++ '/' :: joinComps b := by
  induction a with
  | nil => exact absurd rfl ha
  | cons c rest ih =>
    cases rest with
    | nil =>
      cases b with
      | nil => exact absurd rfl hb
      | cons d ds => simp [joinComps]
    | cons c' r' =>
      have h := ih (by simp)
      simp only [List.cons_append] at h ⊢
      simp [joinComps, h]

theorem renderAbs_isPrefixOf_of_descendant {a b : List String} (h : a <+: b) :
    (renderAbs a).isPrefixOf (renderAbs b) = true := by
  rw [List.isPrefixOf_iff_prefix]
  obtain ⟨t, rfl⟩ := h
  cases t with
  | nil => simp
  | cons x xs =>
    cases a with
    | nil =>
      refine ⟨joinComps (x :: xs), ?_⟩
      simp [renderAbs, joinComps]
    | cons y ys =>
      rw [renderAbs, renderAbs, joinComps_append (y :: ys) (x :: xs) (by simp) (by simp)]
      exact ⟨'/' :: joinComps (x :: xs), by simp⟩

/-- C1 (amended): for every branch root `R` and request path `p`, if
`constructSubPath` succeeds then the canonical absolute path has the
rendered root as a *string* prefix (not necessarily being a descendant of
`R`); if the canonical result does not have the root as string prefix the
operation fails with the error `Requested path … is outside of the branch`;
and every true descendant of the root is accepted. -/
theorem c1_sandbox_check :
    (∀ root rpath q, constructSubPath root rpath = .ok q →
        (renderAbs root).isPrefixOf (renderAbs q) = true) ∧
    (∀ root rpath,
        (renderAbs root).isPrefixOf (renderAbs (cleanComps (root ++ rpath))) = false →
        constructSubPath root rpath =
          .error ("Requested path " ++ renderRel rpath ++ " is outside of the branch")) ∧
    (∀ root rpath, isDescendant root (cleanComps (root ++ rpath)) →
        constructSubPath root rpath = .ok (cleanComps (root ++ rpath))) := by
  refine ⟨?_, ?_, ?_⟩
  · intro root rpath q h
    simp only [constructSubPath] at h
    by_cases hp : (renderAbs root).isPrefixOf (renderAbs (cleanComps (root ++ rpath))) = true
    · rw [if_pos hp] at h
      injection h with h
      subst h
      exact hp
    · rw [if_neg hp] at h
      exact Except.noConfusion h
  · intro root rpath hp
    simp only [constructSubPath]
    rw [if_neg (by simp [hp])]
  · intro root rpath h
    simp only [constructSubPath]
    rw [if_pos (renderAbs_isPrefixOf_of_descendant h)]

/-- Closed witness instantiating `c1_sandbox_check`: a path inside the root
is accepted, and a path whose canonical form escapes the root is rejected
with the documented error message. -/
theorem c1_sandbox_check_witness :
    constructSubPath ["r"] ["a"] = .ok ["r", "a"] ∧
    constructSubPath ["r"] ["..", "..", "x"] =
      .error "Requested path ../../x is outside of the branch" := by
  constructor
  · exact c1_sandbox_check.2.2 ["r"] ["a"] ⟨["a"], by decide⟩
  · exact c1_sandbox_check.2.1 ["r"] ["..", "..", "x"] (by decide)

/-- C1 as stated is false: with root `/foo`, the request path `../foobar`
canonicalises to `/foobar`, which is not a descendant of `/foo`, yet the
string-prefix test `strings.HasPrefix("/foobar", "/foo")` passes, so the
operation executes instead of failing. -/
theorem c1_counterexample :
    constructSubPath ["foo"] ["..", "foobar"] = .ok ["foobar"] ∧
    ¬ isDescendant ["foo"] ["foobar"] := by
  constructor
  · rfl
  · intro h
    obtain ⟨t, ht⟩ := h
    have hh := congrArg (fun l => l.head?) ht
    simp at hh

/-! ## Branch file content operations (`Branch.WriteFile`, `Branch.ReadFile`)

The OS file is modelled by its byte content (`List Nat`), `none` standing
for a non-existent file.  `Branch.WriteFile` (part_006 lines 374-454)
either creates the file (growing it up to `offset` first) or opens the
existing file, growing it from the old end-of-file when `offset` exceeds
the current size and overwriting in place otherwise.  `growFile` fills the
gap by repeatedly writing a buffer obtained from `byteSlicePool` (a
`sync.Pool`) *without clearing it*: a freshly allocated buffer is zeroed,
but a recycled one keeps whatever bytes a previous operation — such as the
`read` request handler, which reads file data into a pooled buffer and
puts it back — left in it.  The gap bytes are therefore the pool buffer's
contents, not necessarily zero.  The returned count is the number of
payload bytes copied by `io.Copy` (the gap is not counted). -/

/-- Bytes written by `growFile` for a gap of length `n`, where `buf` is the
`DefaultReadBufferSize`-byte slice of the pooled buffer that
`growFile` writes repeatedly: gap byte `i` is `buf[i % len(buf)]`. -/
def growBytes (buf : List Nat) (n : Nat) : List Nat :=
  (List.range n).map (fun i => buf.getD (i % buf.length) 0)

/-- Content transformation and returned byte count of `Branch.WriteFile`
after the read-only and sandbox checks have passed, parameterized by the
contents `buf` of the pooled buffer that `growFile` writes into the gap. -/
def branchWriteContentPool (buf : List Nat) (content : Option (List Nat))
    (p : List Nat) (offset : Nat) : Nat × List Nat :=
  match content with
  | none => (p.length, growBytes buf offset ++ p)
  | some c =>
    if c.length < offset then
      (p.length, c ++ (growBytes buf (offset - c.length) ++ p))
    else
      (p.length, c.take offset ++ (p ++ c.drop (offset + p.length)))

/-- Content transformation and returned byte count of `Branch.WriteFile`
in the special case of a zero-filled pool buffer (a freshly created pool,
as the repository's tests install before asserting zero-padded contents).
Write paths that never reach `growFile` — offset 0 on a fresh file, or an
in-place overwrite with `offset ≤ size` — do not depend on the pool
buffer at all and are exactly this transformation. -/
def branchWriteContent (content : Option (List Nat)) (p : List Nat) (offset : Nat) :
    Nat × List Nat :=
  match content with
  | none => (p.length, List.replicate offset 0 ++ p)
  | some c =>
    if c.length < offset then
      (p.length, c ++ (List.replicate (offset - c.length) 0 ++ p))
    else
      (p.length, c.take offset ++ (p ++ c.drop (offset + p.length)))

theorem growBytes_zero (L n : Nat) :
    growBytes (List.replicate L 0) n = List.replicate n 0 := by
  unfold growBytes
  rw [List.eq_replicate_iff]
  refine ⟨by simp, ?_⟩
  intro b hb
  obtain ⟨i, hi, rfl⟩ := List.mem_map.mp hb
  rcases Nat.lt_or_ge (i % L) L with h | h
  · simp [List.getD_eq_getElem?_getD, List.getElem?_replicate,
      List.length_replicate, h]
  · simp [List.getD_eq_getElem?_getD, List.getElem?_replicate,
      List.length_replicate, Nat.not_lt.mpr h]

theorem branchWriteContentPool_fresh (L : Nat) (content : Option (List Nat))
    (p : List Nat) (offset : Nat) :
    branchWriteContentPool (List.replicate L 0) content p offset =
      branchWriteContent content p offset := by
  cases content with
  | none => simp [branchWriteContentPool, branchWriteContent, growBytes_zero]
  | some c =>
    by_cases hlt : c.length < offset
    · simp [branchWriteContentPool, branchWriteContent, if_pos hlt, growBytes_zero]
    · simp [branchWriteContentPool, branchWriteContent, if_neg hlt]

/-- Embedding of `Branch.WriteFile` including the leading
`checkReadOnly` gate (`Branch <name> is read-only`). -/
def branchWriteFile (readonly : Bool) (bname : String) (content : Option (List Nat))
    (p : List Nat) (offset : Nat) : Except String (Nat × List Nat) :=
  if readonly then .error ("Branch " ++ bname ++ " is read-only")
  else .ok (branchWriteContent content p offset)

/-- Errors produced by branch reads and observed by the tree through the
transport's error classifier: `eof` (the wrapped `io.EOF` sentinel),
`notExist` (the `file does not exist` sentinel) and any other error. -/
inductive RErr where
  | eof
  | notExist
  | other (detail : String)
deriving DecidableEq, Repr

/-- Embedding of `Branch.ReadFile` (part_006 lines 303-333) on a file's
content: a missing file yields the not-exists error from `os.Stat`; an
offset at or past end-of-file yields `io.EOF` (the `SectionReader` is
positioned at or beyond its limit); otherwise `min (len p) (size - offset)`
bytes are read into the front of the caller's buffer `p` and that count is
returned. -/
def branchReadFile (content : Option (List Nat)) (p : List Nat) (offset : Nat) :
    Except RErr (Nat × List Nat) :=
  match content with
  | none => .error .notExist
  | some c =>
    if c.length ≤ offset then .error .eof
    else
      .ok (min p.length (c.length - offset),
           (c.drop offset).take (min p.length (c.length - offset)) ++
             p.drop (min p.length (c.length - offset)))

/-- C2 evaluated at a failing input: the claim says every byte between the
old end-of-file and `offset` is zero after the write.  Writing `[5]` at
offset 3 over a one-byte file `[1]` while the recycled pool buffer holds
the stale bytes `[9, 8, 7]` (as a preceding `read` request leaves them)
produces the content `[1, 9, 8, 5]` — the gap byte at index 1 is 9, not 0.
Only a zero-filled pool buffer, i.e. a freshly created pool as the
repository's tests install before asserting zero padding, produces the
claimed `[1, 0, 0, 5]`. -/
theorem c2_stale_pool_gap :
    (branchWriteContentPool [9, 8, 7] (some [1]) [5] 3).2 = [1, 9, 8, 5] ∧
    ((branchWriteContentPool [9, 8, 7] (some [1]) [5] 3).2)[1]? = some 9 ∧
    ¬ ((branchWriteContentPool [9, 8, 7] (some [1]) [5] 3).2)[1]? = some 0 ∧
    (branchWriteContentPool [0, 0, 0] (some [1]) [5] 3).2 = [1, 0, 0, 5] := by
  refine ⟨?_, ?_, ?_, ?_⟩ <;> decide

/-- C8 as stated is false when the target file already exists with content
longer than the written payload: writing `[5]` at offset 0 over `[1, 2]`
leaves `[5, 2]`, and reading it back with a two-byte buffer returns two
bytes `[5, 2]`, not the single written byte `[5]`. -/
theorem c8_counterexample :
    (branchWriteFile false "b" (some [1, 2]) [5] 0) = .ok (1, [5, 2]) ∧
    branchReadFile (some [5, 2]) [0, 0] 0 = .ok (2, [5, 2]) ∧
    ¬ (2 = List.length [5] ∧ [5, 2] = [5] ++ List.drop 1 [0, 0]) := by
  refine ⟨rfl, rfl, ?_⟩
  intro h
  have := h.2
  simp at this

/-- C8 (amended): on a writable branch, for a path that does not yet exist
and a nonempty payload, `WriteFile(path, w, 0)` followed by
`ReadFile(path, buf, 0)` with `buf` at least as large as `w` returns the
count `w.length` and fills the front of the buffer with exactly the
written bytes. -/
theorem c8_roundtrip :
    ∀ (w buf : List Nat), w ≠ [] → w.length ≤ buf.length →
      branchWriteFile false "b" none w 0 = .ok (w.length, w) ∧
      branchReadFile (some w) buf 0 = .ok (w.length, w ++ buf.drop w.length) := by
  intro w buf hw hlen
  constructor
  · simp [branchWriteFile, branchWriteContent]
  · have hpos : 0 < w.length := List.length_pos.mpr hw
    simp only [branchReadFile, Nat.sub_zero, List.drop_zero]
    rw [if_neg (by omega), min_eq_right hlen]
    rw [List.take_length]

/-- Closed witness instantiating `c8_roundtrip` at `w = [5]`,
`buf = [0, 0]`. -/
theorem c8_roundtrip_witness :
    branchWriteFile false "b" none [5] 0 = .ok (1, [5]) ∧
    branchReadFile (some [5]) [0, 0] 0 = .ok (1, [5, 0]) := by
  have h := c8_roundtrip [5] [0, 0] (by decide) (by decide)
  simpa using h

/-! ## Branch item operations (`Branch.ItemOp`)

`Branch.ItemOp` (part_006 lines 479-586) runs the read-only check, the
sandbox check (`constructSubPath`), dispatches on the action and finally
computes its success flag as `err == nil || os.IsNotExist(err)`.
The OS file system is modelled as the list of existing absolute paths
(component lists); `fileutil.PathExists` holds when the query is an
existing item or an ancestor of one.  `os.MkdirAll` is modelled as always
succeeding and `os.Rename` as failing with the not-exists sentinel exactly
when the source item is missing; the errors of the wildcard-delete branch
(`stringutil.GlobToRegex` plus `Branch.Dir`) are supplied as an oracle. -/

/-- Branch-local errors: the `os.ErrNotExist` sentinel (for which
`os.IsNotExist` is true) or any other error message. -/
inductive FsErr where
  | notExist
  | msg (s : String)
deriving DecidableEq, Repr

/-- Model of `os.IsNotExist` applied to a possibly-nil error. -/
def isNotExistErr : Option FsErr → Bool
  | some .notExist => true
  | _ => false

/-- Final component of a slash-separated path string, as returned by
`filepath.Split` (everything after the last separator). -/
def lastComponent (s : String) : String :=
  ⟨(s.data.reverse.takeWhile (fun c => c ≠ '/')).reverse⟩

/-- Model of `fileutil.PathExists`: the query path is an existing item or an
ancestor of one. -/
def pathExists (fs : List (List String)) (q : List String) : Bool :=
  fs.any (fun e => q.isPrefixOf e)

/-- Embedding of the `fileFromOpData` closure of `Branch.ItemOp`: keeps only
the final path component of the operand and rejects an empty one. -/
def fileFromOpData (subPath : List String) (v : String) : Except String (List String) :=
  if lastComponent v = "" then .error "This operation requires a specific file or directory"
  else .ok (subPath ++ [lastComponent v])

/-- Operation data from the CTRL map: `itemop_action`, `itemop_name`,
`itemop_newname`. -/
structure ItemOpData where
  action : String
  name : String
  newname : String

/-- Embedding of `Branch.ItemOp`.  `globResult` is the oracle for the error
produced by the wildcard-delete branch (`GlobToRegex`/`Branch.Dir`); the
`RemoveAll` calls of that branch ignore their errors.  The result is the
pair (success flag, error) returned to the request handler. -/
def itemOp (readonly : Bool) (bname : String) (root : List String)
    (fs : List (List String)) (spath : List String) (op : ItemOpData)
    (globResult : Option FsErr) : Bool × Option FsErr :=
  if readonly then (false, some (.msg ("Branch " ++ bname ++ " is read-only")))
  else
    match constructSubPath root spath with
    | .error e => (false, some (.msg e))
    | .ok subPath =>
      let err : Option FsErr :=
        if op.action = "mkdir" then
          match fileFromOpData subPath op.name with
          | .error s => some (.msg s)
          | .ok _ => none
        else if op.action = "rename" then
          match fileFromOpData subPath op.name with
          | .error s => some (.msg s)
          | .ok nm =>
            match fileFromOpData subPath op.newname with
            | .error s => some (.msg s)
            | .ok _ => if pathExists fs nm then none else some .notExist
        else if op.action = "delete" then
          match fileFromOpData subPath op.name with
          | .error s => some (.msg s)
          | .ok nm =>
            if (renderAbs nm).contains '*' then globResult
            else if pathExists fs nm then none else some .notExist
        else none
      (err.isNone || isNotExistErr err, err)

theorem isNotExistErr_iff (e : Option FsErr) :
    (e.isNone || isNotExistErr e) = true ↔ e = none ∨ e = some .notExist := by
  cases e with
  | none => simp
  | some f => cases f <;> simp [isNotExistErr]

/-- C9: whenever `Branch.ItemOp` passes the read-only and sandbox checks,
the returned success flag is true exactly when the underlying action's
error is nil or a not-exists error; in particular deleting a non-existent
single (non-wildcard) target returns `true` together with the not-exists
error. -/
theorem c9_itemop_success_flag :
    (∀ bname root fs spath op globResult sub,
        constructSubPath root spath = .ok sub →
        ((itemOp false bname root fs spath op globResult).1 = true ↔
          (itemOp false bname root fs spath op globResult).2 = none ∨
          (itemOp false bname root fs spath op globResult).2 = some .notExist)) ∧
    (∀ bname root fs spath op globResult sub,
        constructSubPath root spath = .ok sub →
        op.action = "delete" → lastComponent op.name ≠ "" →
        (renderAbs (sub ++ [lastComponent op.name])).contains '*' = false →
        pathExists fs (sub ++ [lastComponent op.name]) = false →
        itemOp false bname root fs spath op globResult = (true, some .notExist)) := by
  constructor
  · intro bname root fs spath op globResult sub hsub
    simp only [itemOp, if_neg (by simp : ¬ (false = true)), hsub]
    exact isNotExistErr_iff _
  · intro bname root fs spath op globResult sub hsub hact hname hstar hmiss
    simp only [itemOp, if_neg (by simp : ¬ (false = true)), hsub, hact,
      fileFromOpData, if_neg hname]
    have hne : ¬ (("delete" : String) = "mkdir") := by decide
    have hne' : ¬ (("delete" : String) = "rename") := by decide
    simp only [if_neg hne, if_neg hne', if_pos rfl, hstar, hmiss]
    simp [isNotExistErr]

/-- Closed witness instantiating `c9_itemop_success_flag`: deleting the
missing item `gone` below the sandboxed directory `/r/d` reports success
together with the not-exists error. -/
theorem c9_itemop_success_flag_witness :
    itemOp false "b" ["r"] [] ["d"] ⟨"delete", "gone", ""⟩ none = (true, some .notExist) := by
  exact c9_itemop_success_flag.2 "b" ["r"] [] ["d"] ⟨"delete", "gone", ""⟩ none
    ["r", "d"] (by rfl) rfl (by decide) (by rfl) (by rfl)

/-! ## Transport client (`node.Client`)

The client state holds the three maps guarded by `maplock` (peers,
connections, expected fingerprints), whether a client certificate is
present, and the `redial` flag.  A cached connection is represented by the
fingerprint of the TLS peer leaf certificate it was established against
(`none` when the connection is not TLS-wrapped because the client has no
certificate).  The network is an oracle: each connection attempt is a
`NetStep` giving the dial outcome (with the fingerprint presented by the
server) and the outcome of the subsequent `conn.Call`. -/

/-- A cached `rpc.Client` connection; `peerFp` is the SHA-256 fingerprint of
the TLS peer leaf certificate presented during its handshake, `none` for a
plain TCP connection. -/
structure Conn where
  peerFp : Option String
deriving DecidableEq, Repr

/-- State of `node.Client`: the `peers`, `conns` and `fingerprints` maps,
the presence of a client certificate, and the `redial` flag. -/
structure ClientState where
  peers : String → Option String
  conns : String → Option Conn
  fingerprints : String → Option String
  hasCert : Bool
  redial : Bool

/-- Pointwise update of a string-keyed map. -/
def upd {α : Type} (m : String → Option α) (k : String) (v : Option α) :
    String → Option α :=
  fun x => if x = k then v else m x

theorem upd_same {α : Type} (m : String → Option α) (k : String) (v : Option α) :
    upd m k v k = v := by
  simp [upd]

theorem upd_other {α : Type} (m : String → Option α) (k x : String) (v : Option α)
    (h : x ≠ k) : upd m k v x = m x := by
  simp [upd, h]

/-- Outcome of `conn.Call`: success, a closed-connection error
(`rpc.ErrShutdown`, `io.EOF` or `io.ErrUnexpectedEOF`, triggering the
one-shot redial) or any other error, network or remote. -/
inductive CallOutcome where
  | ok
  | closed
  | err (isNet : Bool) (detail : String)
deriving DecidableEq, Repr

/-- Network oracle for one connection attempt: `dial = none` models a dial
failure, `dial = some rfp` a successful dial whose TLS handshake presents a
server certificate with fingerprint `rfp`. -/
structure NetStep where
  dial : Option String
  call : CallOutcome

/-- Errors produced by `Client.SendRequest` and its `handleError`
classifier. -/
inductive RufsErr where
  | unknownTarget (node : String)
  | network (detail : String)
  | untrusted (node : String)
  | remote (detail : String) (isNotExist : Bool)
deriving DecidableEq, Repr

/-- Connection establishment inside `Client.SendRequest` (node_test.go
lines 689-753): reuse a cached connection, otherwise dial; with a client
certificate the connection is TLS-wrapped and the observed fingerprint is
compared against the expected one (`""` meaning trust-on-first-use, a
mismatch failing with the untrusted error and caching nothing). -/
def establishConn (ns : NetStep) (st : ClientState) (node : String) :
    ClientState × Except RufsErr Conn :=
  match st.conns node with
  | some conn => (st, .ok conn)
  | none =>
    match ns.dial with
    | none => (st, .error (.network "dial"))
    | some rfp =>
      if st.hasCert then
        if (st.fingerprints node).getD "" = "" then
          ({ st with fingerprints := upd st.fingerprints node (some rfp),
                     conns := upd st.conns node (some ⟨some rfp⟩) },
           .ok ⟨some rfp⟩)
        else if (st.fingerprints node).getD "" ≠ rfp then
          (st, .error (.untrusted node))
        else
          ({ st with conns := upd st.conns node (some ⟨some rfp⟩) }, .ok ⟨some rfp⟩)
      else
        ({ st with conns := upd st.conns node (some ⟨none⟩) }, .ok ⟨none⟩)

/-- Embedding of `Client.SendRequest` (node_test.go lines 651-800).  The
oracle list also acts as fuel for the one-shot redial recursion; an
exhausted oracle returns a network error with the state unchanged. -/
def sendRequest : List NetStep → ClientState → String →
    ClientState × Except RufsErr Unit
  | [], st, _ => (st, .error (.network "no network"))
  | ns :: rest, st, node =>
    match st.peers node with
    | none => (st, .error (.unknownTarget node))
    | some _ =>
      match establishConn ns st node with
      | (st1, .error e) => (st1, .error e)
      | (st1, .ok _) =>
        match ns.call with
        | .ok => ({ st1 with redial := false }, .ok ())
        | .closed =>
          if st1.redial then
            ({ st1 with redial := false },
             .error (.remote "connection is shut down" false))
          else
            sendRequest rest
              { st1 with conns := upd st1.conns node none, redial := true } node
        | .err isNet d =>
          ({ st1 with redial := false },
           .error (if isNet then .network d
                   else .remote d (d = "file does not exist")))

/-- Embedding of `Client.RegisterPeer`: rejects an already-registered name
or an empty rpc interface, otherwise stores the peer, clears any cached
connection, and records the expected fingerprint. -/
def registerPeer (st : ClientState) (node rpcAddr fp : String) :
    ClientState × Option String :=
  if (st.peers node).isSome then (st, some ("Peer already registered: " ++ node))
  else if rpcAddr = "" then (st, some "RPC interface must not be empty")
  else
    ({ st with peers := upd st.peers node (some rpcAddr),
               conns := upd st.conns node none,
               fingerprints := upd st.fingerprints node (some fp) }, none)

/-- Embedding of `Client.RemovePeer`: deletes the node from all three
maps. -/
def removePeer (st : ClientState) (node : String) : ClientState :=
  { st with peers := upd st.peers node none,
            conns := upd st.conns node none,
            fingerprints := upd st.fingerprints node none }

/-- Embedding of `Client.SendPing` (node_test.go lines 593-624): a node that
is not a registered peer is added temporarily when a non-empty rpc address
is supplied, and the deferred cleanup removes its entries from all three
maps after the request; on success the fingerprint recorded for the node is
read back before the cleanup runs. -/
def sendPing (net : List NetStep) (st : ClientState) (node rpcAddr : String) :
    ClientState × Except RufsErr Unit × Option String :=
  if (st.peers node).isNone && rpcAddr ≠ "" then
    let out := sendRequest net { st with peers := upd st.peers node (some rpcAddr) } node
    let fp : Option String :=
      match out.2 with
      | .ok _ => out.1.fingerprints node
      | .error _ => none
    ({ out.1 with peers := upd out.1.peers node none,
                  conns := upd out.1.conns node none,
                  fingerprints := upd out.1.fingerprints node none },
     out.2, fp)
  else
    let out := sendRequest net st node
    let fp : Option String :=
      match out.2 with
      | .ok _ => out.1.fingerprints node
      | .error _ => none
    (out.1, out.2, fp)

/-- Pinning invariant: every cached connection made to a peer whose expected
fingerprint is non-empty carries a TLS peer certificate hashing to exactly
that fingerprint (vacuous for non-TLS connections, which present no
certificate). -/
def FpInv (st : ClientState) : Prop :=
  ∀ node conn f, st.conns node = some conn → conn.peerFp = some f →
    (st.fingerprints node).getD "" ≠ "" → f = (st.fingerprints node).getD ""

theorem FpInv_upd_tofu (st : ClientState) (node rfp : String) (h : FpInv st) :
    FpInv { st with fingerprints := upd st.fingerprints node (some rfp),
                    conns := upd st.conns node (some ⟨some rfp⟩) } := by
  intro nd conn f hconn hcf hne
  dsimp only at hconn hne ⊢
  by_cases hnd : nd = node
  · subst hnd
    rw [upd_same] at hconn hne ⊢
    cases hconn
    simp only [Option.getD_some]
    simpa using hcf.symm
  · rw [upd_other _ _ _ _ hnd] at hconn hne ⊢
    exact h nd conn f hconn hcf hne

theorem FpInv_upd_match (st : ClientState) (node rfp : String) (h : FpInv st)
    (hmm : (st.fingerprints node).getD "" = rfp) :
    FpInv { st with conns := upd st.conns node (some ⟨some rfp⟩) } := by
  intro nd conn f hconn hcf hne
  dsimp only at hconn hne ⊢
  by_cases hnd : nd = node
  · subst hnd
    rw [upd_same] at hconn
    cases hconn
    simp only at hcf
    rw [← hmm] at hcf
    simpa using hcf.symm
  · rw [upd_other _ _ _ _ hnd] at hconn
    exact h nd conn f hconn hcf hne

theorem FpInv_upd_plain (st : ClientState) (node : String) (h : FpInv st) :
    FpInv { st with conns := upd st.conns node (some ⟨none⟩) } := by
  intro nd conn f hconn hcf hne
  dsimp only at hconn hne ⊢
  by_cases hnd : nd = node
  · subst hnd
    rw [upd_same] at hconn
    cases hconn
    simp at hcf
  · rw [upd_other _ _ _ _ hnd] at hconn
    exact h nd conn f hconn hcf hne

theorem establishConn_FpInv (ns : NetStep) (st : ClientState) (node : String)
    (h : FpInv st) : FpInv (establishConn ns st node).1 := by
  unfold establishConn
  cases hc : st.conns node with
  | some conn => exact h
  | none =>
    cases hd : ns.dial with
    | none => exact h
    | some rfp =>
      by_cases hcert : st.hasCert
      · simp only [hcert, if_true]
        by_cases hfp : (st.fingerprints node).getD "" = ""
        · rw [if_pos hfp]
          exact FpInv_upd_tofu st node rfp h
        · rw [if_neg hfp]
          by_cases hmm : (st.fingerprints node).getD "" ≠ rfp
          · rw [if_pos hmm]
            exact h
          · rw [if_neg hmm]
            push_neg at hmm
            exact FpInv_upd_match st node rfp h hmm
      · simp only [hcert, if_false]
        exact FpInv_upd_plain st node h

theorem FpInv_set_redial (st : ClientState) (b : Bool) (h : FpInv st) :
    FpInv { st with redial := b } :=
  h

theorem FpInv_del_conn (st : ClientState) (node : String) (h : FpInv st) :
    FpInv { st with conns := upd st.conns node none, redial := true } := by
  intro nd conn f hconn hcf hne
  dsimp only at hconn hne ⊢
  by_cases hnd : nd = node
  · subst hnd
    rw [upd_same] at hconn
    exact Option.noConfusion hconn
  · rw [upd_other _ _ _ _ hnd] at hconn
    exact h nd conn f hconn hcf hne

theorem sendRequest_FpInv (net : List NetStep) :
    ∀ (st : ClientState) (node : String), FpInv st →
      FpInv (sendRequest net st node).1 := by
  induction net with
  | nil => intro st node h; exact h
  | cons ns rest ih =>
    intro st node h
    have hest := establishConn_FpInv ns st node h
    unfold sendRequest
    rcases hp : st.peers node with _ | addr
    · exact h
    · rcases he : establishConn ns st node with ⟨st1, res⟩
      rw [he] at hest
      dsimp only at hest
      rcases res with e | c
      · simpa using hest
      · rcases hcall : ns.call with _ | _ | ⟨isNet, d⟩
        · exact FpInv_set_redial st1 false hest
        · dsimp only
          by_cases hr : st1.redial
          · rw [if_pos hr]
            exact FpInv_set_redial st1 false hest
          · rw [if_neg hr]
            exact ih _ node (FpInv_del_conn st1 node hest)
        · exact FpInv_set_redial st1 false hest

theorem registerPeer_FpInv (st : ClientState) (node rpcAddr fp : String)
    (h : FpInv st) : FpInv (registerPeer st node rpcAddr fp).1 := by
  unfold registerPeer
  by_cases hreg : (st.peers node).isSome
  · rw [if_pos hreg]
    exact h
  · rw [if_neg hreg]
    by_cases haddr : rpcAddr = ""
    · rw [if_pos haddr]
      exact h
    · rw [if_neg haddr]
      intro nd conn f hconn hcf hne
      dsimp only at hconn hne ⊢
      by_cases hnd : nd = node
      · subst hnd
        rw [upd_same] at hconn
        exact Option.noConfusion hconn
      · rw [upd_other _ _ _ _ hnd] at hconn
        rw [upd_other _ _ _ _ hnd] at hne ⊢
        exact h nd conn f hconn hcf hne

theorem removePeer_FpInv (st : ClientState) (node : String) (h : FpInv st) :
    FpInv (removePeer st node) := by
  intro nd conn f hconn hcf hne
  unfold removePeer at hconn hne ⊢
  dsimp only at hconn hne ⊢
  by_cases hnd : nd = node
  · subst hnd
    rw [upd_same] at hconn
    exact Option.noConfusion hconn
  · rw [upd_other _ _ _ _ hnd] at hconn
    rw [upd_other _ _ _ _ hnd] at hne ⊢
    exact h nd conn f hconn hcf hne

/-- C3: on a first connection with an empty registered fingerprint the
observed fingerprint is stored and the connection cached against it
(trust-on-first-use); with a non-empty registered fingerprint differing
from the observed one the request fails with the untrusted error carrying
the peer name, the state left unchanged and no connection cached; and the
pinning invariant — every cached connection of a peer with non-empty
expected fingerprint presents a certificate hashing to it — is preserved
by `SendRequest`, `RegisterPeer` and `RemovePeer`. -/
theorem c3_fingerprint_pinning :
    (∀ (st : ClientState) (node addr rfp : String) (rest : List NetStep),
        st.peers node = some addr → st.conns node = none → st.hasCert = true →
        (st.fingerprints node).getD "" = "" →
        (sendRequest (⟨some rfp, .ok⟩ :: rest) st node).1.fingerprints node = some rfp ∧
        (sendRequest (⟨some rfp, .ok⟩ :: rest) st node).1.conns node = some ⟨some rfp⟩ ∧
        (sendRequest (⟨some rfp, .ok⟩ :: rest) st node).2 = .ok ()) ∧
    (∀ (st : ClientState) (node addr rfp : String) (call : CallOutcome)
        (rest : List NetStep),
        st.peers node = some addr → st.conns node = none → st.hasCert = true →
        (st.fingerprints node).getD "" ≠ "" →
        (st.fingerprints node).getD "" ≠ rfp →
        sendRequest (⟨some rfp, call⟩ :: rest) st node =
          (st, .error (.untrusted node))) ∧
    (∀ (net : List NetStep) (st : ClientState) (node : String),
        FpInv st → FpInv (sendRequest net st node).1) ∧
    (∀ (st : ClientState) (node rpcAddr fp : String),
        FpInv st → FpInv (registerPeer st node rpcAddr fp).1) ∧
    (∀ (st : ClientState) (node : String), FpInv st → FpInv (removePeer st node)) := by
  refine ⟨?_, ?_, sendRequest_FpInv, registerPeer_FpInv, removePeer_FpInv⟩
  · intro st node addr rfp rest hp hc hcert hfp
    unfold sendRequest establishConn
    simp only [hp, hc, hcert, if_true, if_pos hfp]
    exact ⟨by simp [upd_same], by simp [upd_same], by trivial⟩
  · intro st node addr rfp call rest hp hc hcert hfp hmm
    unfold sendRequest establishConn
    simp only [hp, hc, hcert, if_true, if_neg hfp, if_pos hmm]

/-- Closed witness instantiating `c3_fingerprint_pinning` on a concrete
one-peer client: trust-on-first-use stores the observed fingerprint, and a
pinned mismatching fingerprint produces the untrusted error. -/
theorem c3_fingerprint_pinning_witness :
    (sendRequest [⟨some "ab:cd", .ok⟩]
        ⟨fun k => if k = "A" then some "localhost:9020" else none,
         fun _ => none, fun _ => none, true, false⟩ "A").1.fingerprints "A" =
      some "ab:cd" ∧
    sendRequest [⟨some "ab:cd", .ok⟩]
        ⟨fun k => if k = "A" then some "localhost:9020" else none,
         fun _ => none, fun k => if k = "A" then some "ee:ff" else none,
         true, false⟩ "A" =
      (⟨fun k => if k = "A" then some "localhost:9020" else none,
        fun _ => none, fun k => if k = "A" then some "ee:ff" else none,
        true, false⟩, .error (.untrusted "A")) := by
  constructor
  · exact (c3_fingerprint_pinning.1
      ⟨fun k => if k = "A" then some "localhost:9020" else none,
       fun _ => none, fun _ => none, true, false⟩
      "A" "localhost:9020" "ab:cd" [] (by decide) rfl rfl rfl).1
  · exact c3_fingerprint_pinning.2.1
      ⟨fun k => if k = "A" then some "localhost:9020" else none,
       fun _ => none, fun k => if k = "A" then some "ee:ff" else none,
       true, false⟩
      "A" "localhost:9020" "ab:cd" .ok [] (by decide) rfl rfl (by decide) (by decide)

/-- C10: pinging a node that is not a registered peer with a non-empty rpc
address leaves no entry for that node in the peer, connection or
fingerprint maps once `SendPing` returns, whatever the network does. -/
theorem c10_ping_no_residue (net : List NetStep) (st : ClientState)
    (node rpcAddr : String) (hp : st.peers node = none) (hr : rpcAddr ≠ "") :
    (sendPing net st node rpcAddr).1.peers node = none ∧
    (sendPing net st node rpcAddr).1.conns node = none ∧
    (sendPing net st node rpcAddr).1.fingerprints node = none := by
  have hcond : ((st.peers node).isNone && rpcAddr ≠ "") = true := by
    simp [hp, hr]
  simp only [sendPing, hcond, if_true]
  refine ⟨?_, ?_, ?_⟩ <;> simp [upd_same]

/-- Closed witness instantiating `c10_ping_no_residue` after a successful
trust-on-first-use ping: no fingerprint or connection persists. -/
theorem c10_ping_no_residue_witness :
    (sendPing [⟨some "ab:cd", .ok⟩]
        ⟨fun _ => none, fun _ => none, fun _ => none, true, false⟩
        "A" "localhost:9020").1.peers "A" = none ∧
    (sendPing [⟨some "ab:cd", .ok⟩]
        ⟨fun _ => none, fun _ => none, fun _ => none, true, false⟩
        "A" "localhost:9020").1.conns "A" = none ∧
    (sendPing [⟨some "ab:cd", .ok⟩]
        ⟨fun _ => none, fun _ => none, fun _ => none, true, false⟩
        "A" "localhost:9020").1.fingerprints "A" = none := by
  exact c10_ping_no_residue [⟨some "ab:cd", .ok⟩]
    ⟨fun _ => none, fun _ => none, fun _ => none, true, false⟩
    "A" "localhost:9020" rfl (by decide)

/-! ## Server dispatch (`RufsServer.Ping`, `RufsServer.Data`,
`RufsServer.checkToken`)

The server holds a registry of local nodes.  `checkToken` (globals.go
lines 219-240) looks up the request's TARGET in the registry (absence
yielding `ErrUnknownTarget`), recomputes the expected auth string
`fmt.Sprintf("%X", sha512.Sum512_224(token.NodeName + node.secret))` and
compares it with the supplied one (`ErrInvalidToken` on mismatch).  The
hash-and-format composite is external Go library code and enters the model
as the abstract parameter `auth`. -/

/-- Server-side token verification errors: `ErrUnknownTarget` and
`ErrInvalidToken`. -/
inductive SrvErr where
  | unknownTarget
  | invalidToken
deriving DecidableEq, Repr

/-- A registered local node: its shared secret and whether a data handler
is installed. -/
structure NodeRec where
  secret : String
  hasHandler : Bool
deriving DecidableEq, Repr

/-- Embedding of `RufsServer.checkToken`.  `auth` abstracts
`UPPER_HEX(SHA512/224(·))`; the argument passed to it is the concatenation
of the token's caller name and the target node's secret, exactly as in the
source. -/
def checkToken (auth : String → String) (nodes : String → Option NodeRec)
    (target tokenName tokenAuth : String) : Except SrvErr NodeRec :=
  match nodes target with
  | none => .error .unknownTarget
  | some nd =>
    if tokenAuth = auth (tokenName ++ nd.secret) then .ok nd
    else .error .invalidToken

/-- Embedding of `RufsServer.Ping`: token verification followed by the
constant `["Pong"]` response. -/
def srvPing (auth : String → String) (nodes : String → Option NodeRec)
    (target tokenName tokenAuth : String) : Except SrvErr (List String) :=
  match checkToken auth nodes target tokenName tokenAuth with
  | .error e => .error e
  | .ok _ => .ok ["Pong"]

/-- Embedding of `RufsServer.Data`: token verification, then the installed
data handler is invoked (its outcome supplied as `handlerRes`); a node
without a handler returns neither data nor an error. -/
def srvData (auth : String → String) (nodes : String → Option NodeRec)
    (target tokenName tokenAuth : String)
    (handlerRes : Except String (List Nat)) :
    Except (SrvErr ⊕ String) (Option (List Nat)) :=
  match checkToken auth nodes target tokenName tokenAuth with
  | .error e => .error (.inl e)
  | .ok nd =>
    if nd.hasHandler then
      match handlerRes with
      | .error s => .error (.inr s)
      | .ok d => .ok (some d)
    else .ok none

/-- C4: for both `Ping` and `Data`, an unregistered target yields the
unknown-target error and a registered target with an auth string differing
from `UPPER_HEX(SHA512/224(caller_name ++ target_secret))` yields the
invalid-token error; `Ping` answers exactly `["Pong"]` precisely when
token verification succeeds. -/
theorem c4_token_verification :
    (∀ auth nodes target tokenName tokenAuth handlerRes,
        nodes target = none →
        srvPing auth nodes target tokenName tokenAuth = .error .unknownTarget ∧
        srvData auth nodes target tokenName tokenAuth handlerRes =
          .error (.inl .unknownTarget)) ∧
    (∀ auth nodes target tokenName tokenAuth handlerRes nd,
        nodes target = some nd →
        tokenAuth ≠ auth (tokenName ++ nd.secret) →
        srvPing auth nodes target tokenName tokenAuth = .error .invalidToken ∧
        srvData auth nodes target tokenName tokenAuth handlerRes =
          .error (.inl .invalidToken)) ∧
    (∀ auth nodes target tokenName tokenAuth,
        srvPing auth nodes target tokenName tokenAuth = .ok ["Pong"] ↔
        ∃ nd, checkToken auth nodes target tokenName tokenAuth = .ok nd) := by
  refine ⟨?_, ?_, ?_⟩
  · intro auth nodes target tokenName tokenAuth handlerRes habs
    constructor
    · simp [srvPing, checkToken, habs]
    · simp [srvData, checkToken, habs]
  · intro auth nodes target tokenName tokenAuth handlerRes nd hnd hne
    constructor
    · simp [srvPing, checkToken, hnd, hne]
    · simp [srvData, checkToken, hnd, hne]
  · intro auth nodes target tokenName tokenAuth
    cases hck : checkToken auth nodes target tokenName tokenAuth with
    | error e => simp [srvPing, hck]
    | ok nd => simp [srvPing, hck]

/-- Closed witness instantiating `c4_token_verification` with a one-node
registry and the identity standing in for the hash: a wrong auth string is
rejected, a missing target is unknown, and a correct token gets `Pong`. -/
theorem c4_token_verification_witness :
    srvPing (fun s => s) (fun k => if k = "N" then some ⟨"sec", true⟩ else none)
      "M" "caller" "callersec" = .error .unknownTarget ∧
    srvPing (fun s => s) (fun k => if k = "N" then some ⟨"sec", true⟩ else none)
      "N" "caller" "wrong" = .error .invalidToken ∧
    srvPing (fun s => s) (fun k => if k = "N" then some ⟨"sec", true⟩ else none)
      "N" "caller" "callersec" = .ok ["Pong"] := by
  refine ⟨?_, ?_, ?_⟩
  · exact (c4_token_verification.1 (fun s => s)
      (fun k => if k = "N" then some ⟨"sec", true⟩ else none)
      "M" "caller" "callersec" (.ok []) (by decide)).1
  · exact (c4_token_verification.2.1 (fun s => s)
      (fun k => if k = "N" then some ⟨"sec", true⟩ else none)
      "N" "caller" "wrong" (.ok []) ⟨"sec", true⟩ (by decide) (by decide)).1
  · exact (c4_token_verification.2.2 (fun s => s)
      (fun k => if k = "N" then some ⟨"sec", true⟩ else none)
      "N" "caller" "callersec").mpr ⟨⟨"sec", true⟩, rfl⟩

/-! ## Tree read walk (`Tree.ReadFile`)

`Tree.ReadFile` (tree.go lines 962-1020) walks the branches produced by the
mapping tree for the parent directory of the requested path, in overlay
order.  The per-branch remote read outcomes are the list `results` (in that
order): either a decoded `(n, bytes)` pair or an error as classified by the
transport.  The walk keeps a success flag: once it is set (a successful
read, or an EOF which is special-cased as terminal) the remaining branches
are not consulted.  On success, `copy(p, buf)` copies
`min (len p) (len buf)` bytes into the front of the caller's buffer. -/

/-- Go's `copy(dst, src)`: the first `min (len dst) (len src)` bytes of
`dst` are replaced by those of `src`. -/
def goCopy (dst src : List Nat) : List Nat :=
  src.take (min dst.length src.length) ++ dst.drop (min dst.length src.length)

/-- Outcome of one branch's remote `read`: decoded count and bytes, or an
error. -/
abbrev ReadRes := Except RErr (Nat × List Nat)

/-- Loop state of `Tree.ReadFile`: count, caller buffer, current error and
the success flag. -/
structure RState where
  n : Nat
  buf : List Nat
  err : Option RErr
  success : Bool
deriving DecidableEq, Repr

/-- One iteration of the `Tree.ReadFile` branch walk. -/
def readStep (st : RState) (r : ReadRes) : RState :=
  if st.success then st
  else
    match r with
    | .ok (m, bytes) => { n := m, buf := goCopy st.buf bytes, err := none, success := true }
    | .error e => { st with err := some e, success := e = .eof }

/-- Embedding of `Tree.ReadFile`: fold the walk over the branch outcomes,
starting from the default not-exists error, and return the count, the
caller's buffer and the final error. -/
def treeReadFile (results : List ReadRes) (p : List Nat) :
    Nat × List Nat × Option RErr :=
  ((results.foldl readStep { n := 0, buf := p, err := some .notExist, success := false }).n,
   (results.foldl readStep { n := 0, buf := p, err := some .notExist, success := false }).buf,
   (results.foldl readStep { n := 0, buf := p, err := some .notExist, success := false }).err)

/-- A branch outcome is terminal when the walk stops after it: a successful
read or an EOF. -/
def isTerminal : ReadRes → Bool
  | .ok _ => true
  | .error e => e = .eof

/-- The error reported when no branch terminates the walk: the last error
observed, defaulting to not-exists when no branch was tried. -/
def lastError (results : List ReadRes) : RErr :=
  results.foldl
    (fun acc r =>
      match r with
      | .error e => e
      | .ok _ => acc) .notExist

theorem readStep_success (st : RState) (hs : st.success = true) (r : ReadRes) :
    readStep st r = st := by
  simp [readStep, hs]

theorem foldl_readStep_success (rs : List ReadRes) (st : RState)
    (hs : st.success = true) : rs.foldl readStep st = st := by
  induction rs with
  | nil => rfl
  | cons r rest ih => rw [List.foldl_cons, readStep_success st hs r, ih]

theorem readStep_fail (m : Nat) (buf : List Nat) (er : Option RErr) (e : RErr) :
    readStep ⟨m, buf, er, false⟩ (.error e) = ⟨m, buf, some e, decide (e = .eof)⟩ := by
  simp [readStep]

theorem foldl_readStep_nonterminal (rs : List ReadRes)
    (hnt : ∀ x ∈ rs, isTerminal x = false) (p : List Nat) (e₀ : RErr) :
    rs.foldl readStep { n := 0, buf := p, err := some e₀, success := false } =
      { n := 0, buf := p,
        err := some (rs.foldl
          (fun acc r => match r with | .error e => e | .ok _ => acc) e₀),
        success := false } := by
  induction rs generalizing e₀ with
  | nil => rfl
  | cons r rest ih =>
    cases r with
    | ok v =>
      have hv := hnt (.ok v) (by simp)
      simp [isTerminal] at hv
    | error e =>
      have he : ¬ (e = RErr.eof) := by
        have h1 := hnt (.error e) (by simp)
        simpa [isTerminal] using h1
      rw [List.foldl_cons, readStep_fail, decide_eq_false he, List.foldl_cons]
      exact ih (fun x hx => hnt x (by simp [hx])) e

theorem foldl_readStep_lastError (rs : List ReadRes)
    (hnt : ∀ x ∈ rs, isTerminal x = false) (p : List Nat) :
    rs.foldl readStep { n := 0, buf := p, err := some .notExist, success := false } =
      { n := 0, buf := p, err := some (lastError rs), success := false } :=
  foldl_readStep_nonterminal rs hnt p .notExist

/-- C6: the `Tree.ReadFile` walk tries branches in order and stops at the
first terminal outcome (success or EOF), so branches after it are
irrelevant; a not-exists (or any other) error from an earlier branch is
skipped in favour of later branches; at the first success the decoded
bytes are copied into the caller's buffer and the decoded count returned
with no error; a first-terminal EOF is returned as-is; and if no branch
terminates the walk the last observed error is returned — the not-exists
default when no branch was tried. -/
theorem c6_read_walk :
    (∀ (xs ys : List ReadRes) (r : ReadRes) (p : List Nat),
        (∀ x ∈ xs, isTerminal x = false) → isTerminal r = true →
        treeReadFile (xs ++ r :: ys) p = treeReadFile (xs ++ [r]) p) ∧
    (∀ (xs ys : List ReadRes) (p : List Nat) (m : Nat) (bytes : List Nat),
        (∀ x ∈ xs, isTerminal x = false) →
        treeReadFile (xs ++ .ok (m, bytes) :: ys) p = (m, goCopy p bytes, none)) ∧
    (∀ (xs ys : List ReadRes) (p : List Nat),
        (∀ x ∈ xs, isTerminal x = false) →
        treeReadFile (xs ++ .error .eof :: ys) p = (0, p, some .eof)) ∧
    (∀ (rs : List ReadRes) (p : List Nat),
        (∀ x ∈ rs, isTerminal x = false) →
        treeReadFile rs p = (0, p, some (lastError rs))) := by
  have key : ∀ (xs : List ReadRes) (r : ReadRes) (ys : List ReadRes) (p : List Nat),
      (∀ x ∈ xs, isTerminal x = false) → isTerminal r = true →
      (xs ++ r :: ys).foldl readStep
          { n := 0, buf := p, err := some .notExist, success := false } =
        readStep ({ n := 0, buf := p, err := some (lastError xs), success := false}) r := by
    intro xs r ys p hxs hr
    rw [← List.singleton_append, ← List.append_assoc]
    rw [List.foldl_append, List.foldl_append]
    rw [foldl_readStep_lastError xs hxs p]
    rw [List.foldl_cons, List.foldl_nil]
    have hsucc :
        (readStep ⟨0, p, some (lastError xs), false⟩ r).success = true := by
      cases r with
      | ok v => simp [readStep]
      | error e =>
        simp only [isTerminal] at hr
        simp [readStep, hr]
    rw [foldl_readStep_success ys _ hsucc]
  refine ⟨?_, ?_, ?_, ?_⟩
  · intro xs ys r p hxs hr
    simp only [treeReadFile]
    rw [key xs r ys p hxs hr, key xs r [] p hxs hr]
  · intro xs ys p m bytes hxs
    simp only [treeReadFile]
    rw [key xs (.ok (m, bytes)) ys p hxs (by simp [isTerminal])]
    simp [readStep]
  · intro xs ys p hxs
    simp only [treeReadFile]
    rw [key xs (.error .eof) ys p hxs (by simp [isTerminal])]
    simp [readStep]
  · intro rs p hrs
    simp only [treeReadFile]
    rw [foldl_readStep_lastError rs hrs p]

/-- Closed witness instantiating `c6_read_walk`: a not-exists error from the
first branch is skipped, the second branch's successful read is copied into
the buffer, and a third branch is never consulted. -/
theorem c6_read_walk_witness :
    treeReadFile [.error .notExist, .ok (2, [4, 5]), .error (.other "late")]
        [0, 0, 9] =
      (2, [4, 5, 9], none) := by
  have h := c6_read_walk.2.1 [.error .notExist] [.error (.other "late")]
    [0, 0, 9] 2 [4, 5] (by intro x hx; simp at hx; simp [hx, isTerminal])
  simpa [goCopy] using h

/-! ## Tree write dispatch (`Tree.WriteFile`)

`Tree.WriteFile` (tree.go lines 1058-1106) walks the mapping-tree branches
for the parent directory, in order, counting every visited branch
(`totalCount`) and the non-writable ones (`ignoreCount`, which are
skipped).  A write is sent to each writable branch (the outcome of branch
`b` being `send b`) and the decoded count overwrites `n`; after the first
error later branches are not consulted.  Afterwards, if every counted
branch was ignored the not-writable aggregate error is produced, otherwise
the last decoded count is returned. -/

/-- Loop state of `Tree.WriteFile`: last decoded count, current error, the
two counters, and the trace of branches a write was dispatched to. -/
structure WState where
  n : Nat
  err : Option RErr
  total : Nat
  ignored : Nat
  sent : List String
deriving DecidableEq, Repr

/-- One iteration of the `Tree.WriteFile` branch walk over the pair
(branch name, writable flag). -/
def writeStep (send : String → Except RErr Nat) (st : WState) (b : String × Bool) :
    WState :=
  if st.err.isSome then st
  else if b.2 = false then
    { st with total := st.total + 1, ignored := st.ignored + 1 }
  else
    match send b.1 with
    | .error e =>
      { st with total := st.total + 1, err := some e, sent := st.sent ++ [b.1] }
    | .ok m =>
      { st with total := st.total + 1, n := m, sent := st.sent ++ [b.1] }

/-- Embedding of `Tree.WriteFile`: fold the walk over the branch list and
apply the final all-not-writable check. -/
def treeWriteFile (branches : List (String × Bool))
    (send : String → Except RErr Nat) : Nat × Option RErr × List String :=
  ((branches.foldl (writeStep send) ⟨0, none, 0, 0, []⟩).n,
   (if (branches.foldl (writeStep send) ⟨0, none, 0, 0, []⟩).err = none ∧
       (branches.foldl (writeStep send) ⟨0, none, 0, 0, []⟩).total =
         (branches.foldl (writeStep send) ⟨0, none, 0, 0, []⟩).ignored then
      some (.other "All applicable branches for the requested path were mounted as not writable")
    else (branches.foldl (writeStep send) ⟨0, none, 0, 0, []⟩).err),
   (branches.foldl (writeStep send) ⟨0, none, 0, 0, []⟩).sent)

/-- Value of a successful remote write (the decoded count). -/
def getOk : Except RErr Nat → Nat
  | .ok m => m
  | .error _ => 0

theorem writeFold (send : String → Except RErr Nat) (branches : List (String × Bool))
    (hsucc : ∀ b ∈ branches, b.2 = true → ∃ m, send b.1 = .ok m) :
    ∀ st : WState, st.err = none →
      (branches.foldl (writeStep send) st).err = none ∧
      (branches.foldl (writeStep send) st).sent =
        st.sent ++ (branches.filter (fun b => b.2)).map (fun b => b.1) ∧
      (branches.foldl (writeStep send) st).total = st.total + branches.length ∧
      (branches.foldl (writeStep send) st).ignored =
        st.ignored + (branches.filter (fun b => b.2 = false)).length ∧
      (branches.foldl (writeStep send) st).n =
        (match (branches.filter (fun b => b.2)).getLast? with
         | none => st.n
         | some lb => getOk (send lb.1)) := by
  induction branches with
  | nil => intro st hst; simp [hst]
  | cons b bs ih =>
    intro st hst
    have hstep : st.err.isSome = false := by simp [hst]
    cases hb2 : b.2 with
    | false =>
      have hw : writeStep send st b =
          { st with total := st.total + 1, ignored := st.ignored + 1 } := by
        simp [writeStep, hstep, hb2]
      rw [List.foldl_cons, hw]
      have ihr := ih (fun x hx h2 => hsucc x (by simp [hx]) h2)
        { st with total := st.total + 1, ignored := st.ignored + 1 } (by simp [hst])
      refine ⟨ihr.1, ?_, ?_, ?_, ?_⟩
      · rw [ihr.2.1]
        simp [List.filter_cons, hb2]
      · rw [ihr.2.2.1]
        simp only [List.length_cons]
        omega
      · rw [ihr.2.2.2.1]
        have hf : List.filter (fun b => decide (b.2 = false)) (b :: bs) =
            b :: List.filter (fun b => decide (b.2 = false)) bs := by
          simp [List.filter_cons, hb2]
        rw [hf]
        simp only [List.length_cons]
        omega
      · rw [ihr.2.2.2.2]
        simp [List.filter_cons, hb2]
    | true =>
      obtain ⟨m, hm⟩ := hsucc b (by simp) hb2
      have hw : writeStep send st b =
          { st with total := st.total + 1, n := m, sent := st.sent ++ [b.1] } := by
        simp [writeStep, hstep, hb2, hm]
      rw [List.foldl_cons, hw]
      have ihr := ih (fun x hx h2 => hsucc x (by simp [hx]) h2)
        { st with total := st.total + 1, n := m, sent := st.sent ++ [b.1] }
        (by simp [hst])
      refine ⟨ihr.1, ?_, ?_, ?_, ?_⟩
      · rw [ihr.2.1]
        simp [List.filter_cons, hb2]
      · rw [ihr.2.2.1]
        simp only [List.length_cons]
        omega
      · rw [ihr.2.2.2.1]
        simp [List.filter_cons, hb2]
      · rw [ihr.2.2.2.2]
        simp only [List.filter_cons, hb2, if_pos]
        rw [List.getLast?_cons]
        cases hl : (bs.filter (fun b => b.2)).getLast? with
        | none => simp [hl, hm, getOk]
        | some lb => simp [hl]

theorem filter_total_ignored (l : List (String × Bool)) :
    ((l.filter (fun b => b.2 = false)).length = l.length ↔
      l.filter (fun b => b.2) = []) := by
  induction l with
  | nil => simp
  | cons b bs ih =>
    cases hb2 : b.2 with
    | false =>
      have h1 : List.filter (fun x => decide (x.2 = false)) (b :: bs) =
          b :: List.filter (fun x => decide (x.2 = false)) bs := by
        simp [List.filter_cons, hb2]
      have h2 : List.filter (fun x => x.2) (b :: bs) =
          List.filter (fun x => x.2) bs := by
        simp [List.filter_cons, hb2]
      rw [h1, h2, List.length_cons, List.length_cons]
      constructor
      · intro h
        exact ih.mp (by omega)
      · intro h
        have := ih.mpr h
        omega
    | true =>
      have h1 : List.filter (fun b => decide (b.2 = false)) (b :: bs) =
          List.filter (fun b => decide (b.2 = false)) bs := by
        simp [List.filter_cons, hb2]
      have h2 : List.filter (fun x => x.2) (b :: bs) =
          b :: List.filter (fun x => x.2) bs := by
        simp [List.filter_cons, hb2]
      rw [h1, h2]
      have hle := List.length_filter_le
        (fun (x : String × Bool) => decide (x.2 = false)) bs
      simp only [List.length_cons]
      constructor
      · intro h
        omega
      · intro h
        simp at h

/-- C7: `Tree.WriteFile` dispatches writes only to the writable branches of
the walk, in mapping-tree order (the trace equals the writable sublist);
when the number of visited branches equals the number of non-writable ones
— in particular when no branch is visited at all — the call fails with the
all-not-writable error; otherwise (all dispatched writes succeeding) it
returns the count decoded from the last dispatched write and no error. -/
theorem c7_write_dispatch (branches : List (String × Bool))
    (send : String → Except RErr Nat)
    (hsucc : ∀ b ∈ branches, b.2 = true → ∃ m, send b.1 = .ok m) :
    (treeWriteFile branches send).2.2 =
      (branches.filter (fun b => b.2)).map (fun b => b.1) ∧
    (branches.filter (fun b => b.2) = [] →
      (treeWriteFile branches send).2.1 =
        some (.other "All applicable branches for the requested path were mounted as not writable")) ∧
    (∀ lb, (branches.filter (fun b => b.2)).getLast? = some lb →
      (treeWriteFile branches send).2.1 = none ∧
      send lb.1 = .ok (treeWriteFile branches send).1) := by
  have hfold := writeFold send branches hsucc ⟨0, none, 0, 0, []⟩ rfl
  obtain ⟨herr, hsent, htot, hign, hn⟩ := hfold
  dsimp only at hsent htot hign hn
  simp only [List.nil_append, Nat.zero_add] at hsent htot hign
  refine ⟨?_, ?_, ?_⟩
  · simp only [treeWriteFile]
    rw [hsent]
  · intro hempty
    have hcnt := (filter_total_ignored branches).mpr hempty
    simp only [treeWriteFile]
    rw [if_pos ⟨herr, by rw [htot, hign]; omega⟩]
  · intro lb hlb
    have hne : branches.filter (fun b => b.2) ≠ [] := by
      intro hc
      rw [hc] at hlb
      simp at hlb
    have hlen : (branches.filter (fun b => decide (b.2 = false))).length ≠
        branches.length := by
      intro hc
      exact hne ((filter_total_ignored branches).mp hc)
    have hcond : ¬ ((branches.foldl (writeStep send) ⟨0, none, 0, 0, []⟩).err = none ∧
        (branches.foldl (writeStep send) ⟨0, none, 0, 0, []⟩).total =
          (branches.foldl (writeStep send) ⟨0, none, 0, 0, []⟩).ignored) := by
      intro hc
      have h2 := hc.2
      rw [htot, hign] at h2
      exact hlen (by omega)
    constructor
    · simp only [treeWriteFile]
      rw [if_neg hcond]
      exact herr
    · simp only [treeWriteFile]
      rw [hn, hlb]
      have hmem : lb ∈ branches.filter (fun b => b.2) := List.mem_of_mem_getLast? hlb
      have hwr : lb.2 = true := (List.mem_filter.mp hmem).2
      obtain ⟨m, hm⟩ := hsucc lb (List.mem_of_mem_filter hmem) hwr
      dsimp only
      rw [hm]
      rfl

/-- Closed witness instantiating `c7_write_dispatch`: with a read-only first
branch and a writable second branch, the write is dispatched only to the
second branch and its count is returned without error. -/
theorem c7_write_dispatch_witness :
    (treeWriteFile [("a", false), ("b", true)] (fun _ => .ok 7)).2.2 = ["b"] ∧
    (treeWriteFile [("a", false), ("b", true)] (fun _ => .ok 7)).2.1 = none ∧
    (treeWriteFile [("a", false), ("b", true)] (fun _ => .ok 7)).1 = 7 := by
  have h := c7_write_dispatch [("a", false), ("b", true)] (fun _ => .ok 7)
    (by intro b hb h2; exact ⟨7, rfl⟩)
  have h3 := h.2.2 ("b", true) (by rfl)
  refine ⟨by simpa using h.1, h3.1, ?_⟩
  have := h3.2
  simpa using this.symm

/-! ## Tree listing merge (`Tree.Dir`)

The visitor of `Tree.Dir` (tree.go lines 412-482) queries every branch in
overlay order and merges each branch's per-directory listings into the
overall result: a directory already present keeps its entries and gains
only those incoming entries whose filename is not already present; a new
directory is appended with its entries.  A *contribution* is one
`(tree path, entries)` pair produced by one branch; the stream of
contributions is ordered by the walk (branch order within each visited
node). -/

/-- A directory entry: its filename plus a tag standing for the remaining
`FileInfo` fields (size, mode, modification time, checksum), so that which
branch's entry survived the merge is observable. -/
structure FInfo where
  name : String
  tag : Nat
deriving DecidableEq, Repr

/-- The filenames of a listing. -/
def namesOf (l : List FInfo) : List String :=
  l.map (fun fi => fi.name)

/-- Merging one contribution into the accumulated `(dirs, fis)` result,
exactly as the inner loop of the `Tree.Dir` visitor does: an existing
directory is extended with the entries whose name is not yet present
(the `existing` map is computed before appending), an unseen directory is
appended at the end. -/
def addContribution (acc : List (String × List FInfo)) (c : String × List FInfo) :
    List (String × List FInfo) :=
  if acc.any (fun e => e.1 = c.1) then
    acc.map (fun e =>
      if e.1 = c.1 then
        (e.1, e.2 ++ c.2.filter (fun fi => ! e.2.any (fun g => g.name = fi.name)))
      else e)
  else acc ++ [c]

/-- The overall merged result of `Tree.Dir` over the ordered stream of
contributions. -/
def mergeContribs (cs : List (String × List FInfo)) : List (String × List FInfo) :=
  cs.foldl addContribution []

/-- The merged listing recorded for tree path `d`. -/
def lookupDir (acc : List (String × List FInfo)) (d : String) : List FInfo :=
  match acc.find? (fun e => e.1 = d) with
  | some e => e.2
  | none => []

/-- First entry of a listing carrying filename `n`. -/
def findName (l : List FInfo) (n : String) : Option FInfo :=
  l.find? (fun fi => fi.name = n)

/-- The entry for filename `n` under tree path `d` contributed by the first
contribution in order that owns it. -/
def firstOwner : List (String × List FInfo) → String → String → Option FInfo
  | [], _, _ => none
  | c :: rest, d, n =>
    if c.1 = d then
      match findName c.2 n with
      | some fi => some fi
      | none => firstOwner rest d n
    else firstOwner rest d n

theorem lookupDir_cons_hit (e : String × List FInfo)
    (rest : List (String × List FInfo)) (d : String) (h : e.1 = d) :
    lookupDir (e :: rest) d = e.2 := by
  simp [lookupDir, List.find?_cons, h]

theorem lookupDir_cons_miss (e : String × List FInfo)
    (rest : List (String × List FInfo)) (d : String) (h : ¬ e.1 = d) :
    lookupDir (e :: rest) d = lookupDir rest d := by
  simp [lookupDir, List.find?_cons, h]

theorem findName_cons_hit (fi : FInfo) (tl : List FInfo) (n : String)
    (h : fi.name = n) : findName (fi :: tl) n = some fi := by
  simp [findName, List.find?_cons, h]

theorem findName_cons_miss (fi : FInfo) (tl : List FInfo) (n : String)
    (h : ¬ fi.name = n) : findName (fi :: tl) n = findName tl n := by
  simp [findName, List.find?_cons, h]

theorem findName_isSome (l : List FInfo) (n : String) :
    (findName l n).isSome = l.any (fun g => g.name = n) := by
  induction l with
  | nil => rfl
  | cons fi tl ih =>
    by_cases h : fi.name = n
    · rw [findName_cons_hit fi tl n h]
      simp [h]
    · rw [findName_cons_miss fi tl n h, ih]
      simp [h]

theorem lookupDir_of_not_found (acc : List (String × List FInfo)) (d : String)
    (h : acc.any (fun e => e.1 = d) = false) : lookupDir acc d = [] := by
  have hf : acc.find? (fun e => e.1 = d) = none := by
    rw [List.find?_eq_none]
    intro x hx hpx
    have hcontra : acc.any (fun e => e.1 = d) = true := List.any_eq_true.mpr ⟨x, hx, hpx⟩
    rw [h] at hcontra
    exact Bool.noConfusion hcontra
  simp [lookupDir, hf]

theorem lookupDir_map_update (c : String × List FInfo) (d : String) (hcd : c.1 = d) :
    ∀ acc : List (String × List FInfo), acc.any (fun e => e.1 = d) = true →
      lookupDir (acc.map (fun e =>
          if e.1 = c.1 then
            (e.1, e.2 ++ c.2.filter (fun fi => ! e.2.any (fun g => g.name = fi.name)))
          else e)) d =
        lookupDir acc d ++
          c.2.filter (fun fi => ! (lookupDir acc d).any (fun g => g.name = fi.name)) := by
  intro acc
  induction acc with
  | nil => intro h; exact Bool.noConfusion h
  | cons e rest ih =>
    intro hfound
    by_cases hed : e.1 = d
    · have hec : e.1 = c.1 := by rw [hed, hcd]
      rw [List.map_cons, if_pos hec]
      rw [lookupDir_cons_hit _ _ _ hed]
      rw [lookupDir_cons_hit _ _ _ (show ((e.1,
        e.2 ++ c.2.filter (fun fi => ! e.2.any (fun g => g.name = fi.name))) :
          String × List FInfo).1 = d from hed)]
    · rw [List.map_cons]
      have hrest : rest.any (fun e => e.1 = d) = true := by
        have h1 := List.any_eq_true.mp hfound
        obtain ⟨x, hx, hpx⟩ := h1
        rcases List.mem_cons.mp hx with hxe | hxr
        · subst hxe
          simp at hpx
          exact absurd hpx hed
        · exact List.any_eq_true.mpr ⟨x, hxr, hpx⟩
      have hkey : ¬ ((if e.1 = c.1 then
          (e.1, e.2 ++ c.2.filter (fun fi => ! e.2.any (fun g => g.name = fi.name)))
          else e).1 = d) := by
        by_cases hec : e.1 = c.1
        · rw [if_pos hec]
          exact hed
        · rw [if_neg hec]
          exact hed
      rw [lookupDir_cons_miss _ _ _ hkey, lookupDir_cons_miss _ _ _ hed]
      exact ih hrest

theorem lookupDir_map_update_other (c : String × List FInfo) (d : String)
    (hcd : ¬ c.1 = d) :
    ∀ acc : List (String × List FInfo),
      lookupDir (acc.map (fun e =>
          if e.1 = c.1 then
            (e.1, e.2 ++ c.2.filter (fun fi => ! e.2.any (fun g => g.name = fi.name)))
          else e)) d =
        lookupDir acc d := by
  intro acc
  induction acc with
  | nil => rfl
  | cons e rest ih =>
    rw [List.map_cons]
    by_cases hed : e.1 = d
    · have hec : ¬ (e.1 = c.1) := by
        intro h
        exact hcd (by rw [← h, hed])
      rw [if_neg hec]
      rw [lookupDir_cons_hit _ _ _ hed, lookupDir_cons_hit _ _ _ hed]
    · have hkey : ¬ ((if e.1 = c.1 then
          (e.1, e.2 ++ c.2.filter (fun fi => ! e.2.any (fun g => g.name = fi.name)))
          else e).1 = d) := by
        by_cases hec : e.1 = c.1
        · rw [if_pos hec]
          exact hed
        · rw [if_neg hec]
          exact hed
      rw [lookupDir_cons_miss _ _ _ hkey, lookupDir_cons_miss _ _ _ hed]
      exact ih

theorem lookupDir_addContribution (acc : List (String × List FInfo))
    (c : String × List FInfo) (d : String) :
    lookupDir (addContribution acc c) d =
      if c.1 = d then
        (if acc.any (fun e => e.1 = d) then
          lookupDir acc d ++
            c.2.filter (fun fi => ! (lookupDir acc d).any (fun g => g.name = fi.name))
        else c.2)
      else lookupDir acc d := by
  by_cases hcd : c.1 = d
  · rw [if_pos hcd]
    by_cases hfound : acc.any (fun e => e.1 = d) = true
    · rw [if_pos hfound]
      have hfc : acc.any (fun e => e.1 = c.1) = true := by
        rw [hcd]
        exact hfound
      rw [addContribution, if_pos hfc]
      exact lookupDir_map_update c d hcd acc hfound
    · have hff : acc.any (fun e => e.1 = d) = false := by
        cases hval : acc.any (fun e => e.1 = d) with
        | false => rfl
        | true => exact absurd hval hfound
      rw [if_neg hfound]
      have hfc : ¬ (acc.any (fun e => e.1 = c.1) = true) := by
        rw [hcd]
        exact hfound
      rw [addContribution, if_neg hfc]
      have hnone : acc.find? (fun e => e.1 = d) = none := by
        rw [List.find?_eq_none]
        intro x hx hpx
        have hcontra : acc.any (fun e => e.1 = d) = true :=
          List.any_eq_true.mpr ⟨x, hx, hpx⟩
        rw [hff] at hcontra
        exact Bool.noConfusion hcontra
      rw [lookupDir, List.find?_append, hnone, Option.none_or]
      simp [List.find?_cons, hcd]
  · rw [if_neg hcd]
    rw [addContribution]
    by_cases hfound : acc.any (fun e => e.1 = c.1) = true
    · rw [if_pos hfound]
      exact lookupDir_map_update_other c d hcd acc
    · rw [if_neg hfound]
      have hcnone : List.find? (fun e => e.1 = d) [c] = none := by
        simp [List.find?_cons, hcd]
      rw [lookupDir, List.find?_append, hcnone, Option.or_none]
      rfl

theorem findName_filter_of_absent (old c2 : List FInfo) (n : String)
    (h : old.any (fun g => g.name = n) = false) :
    findName (c2.filter (fun fi => ! old.any (fun g => g.name = fi.name))) n =
      findName c2 n := by
  induction c2 with
  | nil => rfl
  | cons fi tl ih =>
    by_cases hn : fi.name = n
    · have hkeep : (! old.any (fun g => g.name = fi.name)) = true := by
        rw [hn, h]
        rfl
      rw [List.filter_cons, if_pos hkeep]
      rw [findName_cons_hit fi _ n hn, findName_cons_hit fi tl n hn]
    · rw [List.filter_cons]
      by_cases hkeep : (! old.any (fun g => g.name = fi.name)) = true
      · rw [if_pos hkeep]
        rw [findName_cons_miss fi _ n hn, findName_cons_miss fi tl n hn]
        exact ih
      · rw [if_neg hkeep]
        rw [findName_cons_miss fi tl n hn]
        exact ih

theorem findName_filter_of_present (old c2 : List FInfo) (n : String)
    (h : old.any (fun g => g.name = n) = true) :
    findName (c2.filter (fun fi => ! old.any (fun g => g.name = fi.name))) n =
      none := by
  rw [findName, List.find?_eq_none]
  intro fi hfi hname
  have hmem := List.mem_filter.mp hfi
  have hpred := hmem.2
  rw [Bool.not_eq_true'] at hpred
  have hn : fi.name = n := by simpa using hname
  rw [hn, h] at hpred
  exact Bool.noConfusion hpred

theorem findName_append_filter (old c2 : List FInfo) (n : String) :
    findName (old ++ c2.filter (fun fi => ! old.any (fun g => g.name = fi.name))) n =
      (findName old n).or (findName c2 n) := by
  rw [findName, List.find?_append]
  cases hfn : findName old n with
  | some g =>
    have hsome : (findName old n).isSome = true := by rw [hfn]; rfl
    rw [findName_isSome] at hsome
    have := findName_filter_of_present old c2 n hsome
    rw [findName] at hfn
    rw [hfn]
    rw [findName] at this
    rw [this, Option.or_none]
    rfl
  | none =>
    have hnone : (findName old n).isSome = false := by rw [hfn]; rfl
    rw [findName_isSome] at hnone
    have := findName_filter_of_absent old c2 n hnone
    rw [findName] at hfn
    rw [hfn, Option.none_or]
    rw [findName, findName] at this
    exact this

theorem firstOwner_cons (c : String × List FInfo) (cs : List (String × List FInfo))
    (d n : String) :
    firstOwner (c :: cs) d n =
      (if c.1 = d then findName c.2 n else none).or (firstOwner cs d n) := by
  rw [firstOwner]
  by_cases hcd : c.1 = d
  · rw [if_pos hcd, if_pos hcd]
    cases hfn : findName c.2 n with
    | some fi => rfl
    | none => rw [Option.none_or]
  · rw [if_neg hcd, if_neg hcd, Option.none_or]

theorem nodup_names_append_filter (old c2 : List FInfo)
    (hold : (namesOf old).Nodup) (hc2 : (namesOf c2).Nodup) :
    (namesOf (old ++ c2.filter (fun fi => ! old.any (fun g => g.name = fi.name)))).Nodup := by
  rw [namesOf, List.map_append]
  refine List.Nodup.append hold ?_ ?_
  · exact List.Nodup.sublist
      (List.Sublist.map _ (List.filter_sublist c2)) hc2
  · intro x hx hx2
    obtain ⟨fi, hfi, hfix⟩ := List.mem_map.mp hx2
    have hmem := List.mem_filter.mp hfi
    have hpred := hmem.2
    rw [Bool.not_eq_true'] at hpred
    obtain ⟨g, hg, hgx⟩ := List.mem_map.mp hx
    have : old.any (fun g => g.name = fi.name) = true := by
      rw [List.any_eq_true]
      exact ⟨g, hg, by rw [hgx, hfix]; simp⟩
    rw [this] at hpred
    exact Bool.noConfusion hpred

theorem mergeFold (cs : List (String × List FInfo)) :
    ∀ acc : List (String × List FInfo),
      (∀ d, (namesOf (lookupDir acc d)).Nodup) →
      (∀ c ∈ cs, (namesOf c.2).Nodup) →
      (∀ d, (namesOf (lookupDir (cs.foldl addContribution acc) d)).Nodup) ∧
      (∀ d n, findName (lookupDir (cs.foldl addContribution acc) d) n =
        (findName (lookupDir acc d) n).or (firstOwner cs d n)) := by
  induction cs with
  | nil =>
    intro acc hacc hcs
    refine ⟨hacc, ?_⟩
    intro d n
    rw [List.foldl_nil, firstOwner, Option.or_none]
  | cons c rest ih =>
    intro acc hacc hcs
    have haccN : ∀ d, (namesOf (lookupDir (addContribution acc c) d)).Nodup := by
      intro d
      rw [lookupDir_addContribution]
      by_cases hcd : c.1 = d
      · rw [if_pos hcd]
        by_cases hfound : acc.any (fun e => e.1 = d) = true
        · rw [if_pos hfound]
          exact nodup_names_append_filter _ _ (hacc d) (hcs c (by simp))
        · rw [if_neg hfound]
          exact hcs c (by simp)
      · rw [if_neg hcd]
        exact hacc d
    have ihr := ih (addContribution acc c) haccN (fun x hx => hcs x (by simp [hx]))
    rw [List.foldl_cons]
    refine ⟨ihr.1, ?_⟩
    intro d n
    rw [ihr.2 d n]
    have hstep : findName (lookupDir (addContribution acc c) d) n =
        (findName (lookupDir acc d) n).or
          (if c.1 = d then findName c.2 n else none) := by
      rw [lookupDir_addContribution]
      by_cases hcd : c.1 = d
      · rw [if_pos hcd, if_pos hcd]
        by_cases hfound : acc.any (fun e => e.1 = d) = true
        · rw [if_pos hfound]
          exact findName_append_filter _ _ n
        · rw [if_neg hfound]
          have hemp : lookupDir acc d = [] := by
            cases hval : acc.any (fun e => e.1 = d) with
            | false => exact lookupDir_of_not_found acc d hval
            | true => exact absurd hval hfound
          rw [hemp]
          rw [show findName ([] : List FInfo) n = none from rfl, Option.none_or]
      · rw [if_neg hcd, if_neg hcd, Option.or_none]
    rw [hstep, Option.or_assoc, ← firstOwner_cons]

theorem findName_of_mem (l : List FInfo) (fi : FInfo)
    (hnd : (namesOf l).Nodup) (hmem : fi ∈ l) : findName l fi.name = some fi := by
  induction l with
  | nil => exact absurd hmem (by simp)
  | cons g tl ih =>
    simp only [namesOf, List.map_cons] at hnd
    have hnd2 := List.nodup_cons.mp hnd
    rcases List.mem_cons.mp hmem with hfg | htl
    · subst hfg
      exact findName_cons_hit fi tl fi.name rfl
    · have hgname : ¬ (g.name = fi.name) := by
        intro hc
        exact hnd2.1 (by rw [hc]; exact List.mem_map.mpr ⟨fi, htl, rfl⟩)
      rw [findName_cons_miss g tl fi.name hgname]
      exact ih hnd2.2 htl

/-- C5: merging `Tree.Dir` contributions in overlay order produces, for
every tree path, a listing whose filenames are pairwise distinct, in which
the entry recorded under a filename is exactly the one contributed by the
first contribution in order that owned that filename for that path —
assuming each single branch listing has no duplicate filenames, as
`ioutil.ReadDir` guarantees. -/
theorem c5_dir_overlay_merge (cs : List (String × List FInfo))
    (hcs : ∀ c ∈ cs, (namesOf c.2).Nodup) :
    (∀ d, (namesOf (lookupDir (mergeContribs cs) d)).Nodup) ∧
    (∀ d n, findName (lookupDir (mergeContribs cs) d) n = firstOwner cs d n) ∧
    (∀ d fi, fi ∈ lookupDir (mergeContribs cs) d →
      firstOwner cs d fi.name = some fi) := by
  have hbase : ∀ d, (namesOf (lookupDir ([] : List (String × List FInfo)) d)).Nodup := by
    intro d
    simp [lookupDir, namesOf]
  have h := mergeFold cs [] hbase hcs
  refine ⟨h.1, ?_, ?_⟩
  · intro d n
    rw [mergeContribs, h.2 d n]
    rw [show findName (lookupDir ([] : List (String × List FInfo)) d) n = none from rfl,
      Option.none_or]
  · intro d fi hmem
    have hfn := findName_of_mem (lookupDir (mergeContribs cs) d) fi (h.1 d) hmem
    rw [← hfn, mergeContribs, h.2 d fi.name]
    rw [show findName (lookupDir ([] : List (String × List FInfo)) d) fi.name = none
      from rfl, Option.none_or]

/-- Closed witness instantiating `c5_dir_overlay_merge`: two branches both
return directory `d` with the filename `a`; the merged listing keeps the
first branch's entry (tag 1) and appends the second branch's new name
`c`. -/
theorem c5_dir_overlay_merge_witness :
    (namesOf (lookupDir (mergeContribs
        [("d", [⟨"a", 1⟩, ⟨"b", 2⟩]), ("d", [⟨"a", 9⟩, ⟨"c", 3⟩])]) "d")).Nodup ∧
    findName (lookupDir (mergeContribs
        [("d", [⟨"a", 1⟩, ⟨"b", 2⟩]), ("d", [⟨"a", 9⟩, ⟨"c", 3⟩])]) "d") "a" =
      some ⟨"a", 1⟩ := by
  constructor
  · exact (c5_dir_overlay_merge
      [("d", [⟨"a", 1⟩, ⟨"b", 2⟩]), ("d", [⟨"a", 9⟩, ⟨"c", 3⟩])]
      (by intro x hx; simp at hx; rcases hx with h | h <;> subst h <;> decide)).1 "d"
  · rw [(c5_dir_overlay_merge
      [("d", [⟨"a", 1⟩, ⟨"b", 2⟩]), ("d", [⟨"a", 9⟩, ⟨"c", 3⟩])]
      (by intro x hx; simp at hx; rcases hx with h | h <;> subst h <;> decide)).2.1
      "d" "a"]
    decide

end RufsProof
